import Mathlib

/-!
A verification development for the pga-axioms repository.

The inspected sources are the site's UI glue (`src/site/index.js`) and the
README describing the 2D projective geometric algebra (PGA) core.  The UI
layer is embedded directly from the JavaScript; the Rust/WASM core (algebra,
axiom solvers, polygon clipper) is not among the inspected files, so those
parts are modelled from the specification's description, over exact rational
coefficients in place of `f64`.
-/

/-! ## The UI layer (`src/site/index.js`) -/

/-- An SVG child element as `callCurrentAxiom` sees it: interactive circles
carry class `point` and expose their center `cx()/cy()`; interactive line
segments carry class `segment` and expose their plotted coordinate `array()`;
everything else (the paper, the crease, the cut polygons) carries neither
class. -/
inductive SvgElem where
  | pointElem (cx cy : ℚ)
  | segmentElem (x1 y1 x2 y2 : ℚ)
  | otherElem
deriving DecidableEq

/-- `elem.hasClass('point')`. -/
def SvgElem.hasClassPoint : SvgElem → Bool
  | .pointElem _ _ => true
  | _ => false

/-- `elem.hasClass('segment')`. -/
def SvgElem.hasClassSegment : SvgElem → Bool
  | .segmentElem _ _ _ _ => true
  | _ => false

/-- `elem.cx()` (only ever read on `point`-classed elements). -/
def SvgElem.cx : SvgElem → ℚ
  | .pointElem cx _ => cx
  | _ => 0

/-- `elem.cy()` (only ever read on `point`-classed elements). -/
def SvgElem.cy : SvgElem → ℚ
  | .pointElem _ cy => cy
  | _ => 0

/-- `element.array()` of a `segment`-classed line: `[x1, y1, x2, y2]`. -/
def SvgElem.arr : SvgElem → List ℚ
  | .segmentElem x1 y1 x2 y2 => [x1, y1, x2, y2]
  | _ => []

/-- One positional argument of a WASM axiom-function call: the paper struct, a
`wasm.Point`, or a line handed over as its two segment-endpoint `wasm.Point`s
(`[new wasm.Point(...array().slice(0,2)), new wasm.Point(...array().slice(2,4))]`). -/
inductive WasmArg where
  | paperArg
  | pointArg (x y : ℚ)
  | segmentArg (x1 y1 x2 y2 : ℚ)
deriving DecidableEq

/-- Whether an argument is a `wasm.Point` built from a `point`-classed element. -/
def WasmArg.isPointArg : WasmArg → Bool
  | .pointArg _ _ => true
  | _ => false

/-- Whether an argument is a line built from a `segment`-classed element. -/
def WasmArg.isSegmentArg : WasmArg → Bool
  | .segmentArg _ _ _ _ => true
  | _ => false

/-- `callCurrentAxiom`'s local `pointCoords`: the `point`-classed children, in
document order, each turned into a `wasm.Point` from its center. -/
def pointCoords (children : List SvgElem) : List WasmArg :=
  (children.filter SvgElem.hasClassPoint).map fun e => WasmArg.pointArg e.cx e.cy

/-- `callCurrentAxiom`'s local `segmentEndpointCoords`: the `segment`-classed
children, in document order, each turned into its two endpoint `wasm.Point`s. -/
def segmentEndpointCoords (children : List SvgElem) : List WasmArg :=
  (children.filter SvgElem.hasClassSegment).map fun e =>
    WasmArg.segmentArg (e.arr.getD 0 0) (e.arr.getD 1 0) (e.arr.getD 2 0) (e.arr.getD 3 0)

/-- The positional argument list `callCurrentAxiom` passes to the selected
axiom function: `currentAxiom.function(paperStruct, ...coords)` with
`coords = pointCoords.concat(segmentEndpointCoords)`. -/
def callCurrentAxiomArgs (children : List SvgElem) : List WasmArg :=
  WasmArg.paperArg :: (pointCoords children ++ segmentEndpointCoords children)

/-- The `line` field of a returned result, with possibly-null coefficients
(`results.line.a`, `.b`, `.c` are each compared against `null`). -/
structure LineObj where
  a : Option ℚ
  b : Option ℚ
  c : Option ℚ
deriving DecidableEq

/-- A 2D point as exchanged with the WASM core (`wasm.Point`, `{x, y}`). -/
structure Point where
  x : ℚ
  y : ℚ
deriving DecidableEq

/-- A non-null value returned by a WASM axiom call:
`{ line: {a,b,c} | null, positive: [{x,y}...], negative: [{x,y}...] }`. -/
structure ResultObj where
  line : Option LineObj
  positive : List Point
  negative : List Point
deriving DecidableEq

/-- What the result-handling branch of `callCurrentAxiom` leaves on screen:
either the no-solution state (crease removed, both polygons plotted empty) or
a crease drawn from `(a, b, c)` with the two plotted polygons. -/
inductive UIOutcome where
  | noSolution
  | solution (a b c : ℚ) (positive negative : List (ℚ × ℚ))
deriving DecidableEq

/-- The result handling of `callCurrentAxiom`, lines 227–240 of
`src/site/index.js`.  The JavaScript condition is
`results != null && results.line.a != null && results.line.b != null && results.line.c != null`:
when `results` is `null` the conjunction short-circuits to the else branch,
but when `results` is non-null and `results.line` itself is `null`, reading
`results.line.a` throws a `TypeError` (modelled as `Except.error ()`). -/
def handleResults : Option ResultObj → Except Unit UIOutcome
  | none => .ok .noSolution
  | some r =>
    match r.line with
    | none => .error ()
    | some l =>
      match l.a, l.b, l.c with
      | some a, some b, some c =>
          .ok (.solution a b c (r.positive.map fun p => (p.x, p.y))
            (r.negative.map fun p => (p.x, p.y)))
      | _, _, _ => .ok .noSolution

/-- Tags standing for the five WASM solver functions the dispatch array stores. -/
inductive AxiomFn where
  | fn1 | fn2 | fn3 | fn4 | fn5
deriving DecidableEq

/-- One entry of the dispatch array: its default input points, its default
input segments (each `[x1, y1, x2, y2]`), and its solver function. -/
structure AxiomSpecification where
  points : List (ℚ × ℚ)
  lines : List (ℚ × ℚ × ℚ × ℚ)
  fn : AxiomFn
deriving DecidableEq

/-- `scx = w * 0.5` with `w = 500`. -/
def scx : ℚ := 500 * (1 / 2)

/-- `scy = h * 0.5` with `h = 500`. -/
def scy : ℚ := 500 * (1 / 2)

/-- `paperSize = Math.min(w, h) * 0.75`. -/
def paperSize : ℚ := 500 * (3 / 4)

/-- The `axiomSpecifications` dispatch array of `src/site/index.js`: five
entries, for `wasm.axiom_1` … `wasm.axiom_5`. -/
def axiomSpecifications : List AxiomSpecification :=
  [ ⟨[(scx, scy - paperSize * (1/4)), (scx, scy + paperSize * (1/4))], [], .fn1⟩,
    ⟨[(scx, scy - paperSize * (1/4)), (scx, scy + paperSize * (1/4))], [], .fn2⟩,
    ⟨[],
      [(scx - paperSize * (1/4), scy - paperSize * (1/4),
        scx + paperSize * (1/4), scy - paperSize * (1/4)),
       (scx - paperSize * (1/4), scy + paperSize * (1/4),
        scx + paperSize * (1/4), scy + paperSize * (1/4))], .fn3⟩,
    ⟨[(scx, scy - paperSize * (1/4))],
      [(scx - paperSize * (1/4), scy, scx + paperSize * (1/4), scy)], .fn4⟩,
    ⟨[(scx - paperSize * (1/4), scy - paperSize * (1/8)),
      (scx + paperSize * (1/4), scy - paperSize * (1/8))],
      [(scx - paperSize * (1/8), scy + paperSize * (1/8),
        scx + paperSize * (1/8), scy + paperSize * (1/8))], .fn5⟩ ]

/-- The keydown handler's acceptance test, `/^[1-7]$/i.test(key)`. -/
def isValidAxiom (key : String) : Bool :=
  key ∈ ["1", "2", "3", "4", "5", "6", "7"]

/-- JavaScript `key - 1` on an accepted key: the decimal value of the key
string, minus one — the index handed to `switchAxiom`. -/
def keyIndex (key : String) : ℕ :=
  (key.data.foldl (fun n c => 10 * n + (c.toNat - 48)) 0) - 1

/-- A bounding box as svg.js reports it: origin `(x, y)`, size `(w, h)`,
with `x2 = x + w` and `y2 = y + h`. -/
structure BBox where
  x : ℚ
  y : ℚ
  w : ℚ
  h : ℚ
deriving DecidableEq

/-- `box.x2`. -/
def BBox.x2 (b : BBox) : ℚ := b.x + b.w

/-- `box.y2`. -/
def BBox.y2 (b : BBox) : ℚ := b.y + b.h

/-- `checkPaperBoundaries` of `src/site/index.js`: starting from the dragged
box's own origin, clamp against each side of the paper's bounds in program
order and return the coordinates passed to `handler.move(x, y)`. -/
def checkPaperBoundaries (paperBounds box : BBox) : ℚ × ℚ :=
  let x0 := box.x
  let y0 := box.y
  let x1 := if box.x < paperBounds.x then paperBounds.x else x0
  let y1 := if box.y < paperBounds.y then paperBounds.y else y0
  let x2 := if box.x2 > paperBounds.x2 then paperBounds.x2 - box.w else x1
  let y2 := if box.y2 > paperBounds.y2 then paperBounds.y2 - box.h else y1
  (x2, y2)

/-! ## The multivector algebra core (modelled from the spec, §3 / §4.1) -/

/-- Modelled from the spec: a multivector of 2D PGA `R*(2,0,1)` — eight
coefficients over the basis `{1, e0, e1, e2, e01, e20, e12, e012}` (spec §3,
README "Multivectors").  The Rust algebra core is not among the inspected
sources; exact rationals stand in for its `f64` coefficients. -/
@[ext] structure Multivector where
  s : ℚ
  e0 : ℚ
  e1 : ℚ
  e2 : ℚ
  e01 : ℚ
  e20 : ℚ
  e12 : ℚ
  e012 : ℚ
deriving DecidableEq

/-- Modelled from the spec (§4.1): the geometric product, distributed over all
blade pairs with the sign/result table derived from `e0·e0 = 0`,
`e1·e1 = e2·e2 = 1` and anticommutation of distinct basis vectors (README
"Geometric Product"; the README says the implementation follows the Ganja.js
code generator, which emits exactly this table). -/
def geometricProduct (a b : Multivector) : Multivector where
  s := a.s * b.s + a.e1 * b.e1 + a.e2 * b.e2 - a.e12 * b.e12
  e0 := a.s * b.e0 + a.e0 * b.s - a.e1 * b.e01 + a.e2 * b.e20
    + a.e01 * b.e1 - a.e20 * b.e2 - a.e12 * b.e012 - a.e012 * b.e12
  e1 := a.s * b.e1 + a.e1 * b.s - a.e2 * b.e12 + a.e12 * b.e2
  e2 := a.s * b.e2 + a.e1 * b.e12 + a.e2 * b.s - a.e12 * b.e1
  e01 := a.s * b.e01 + a.e0 * b.e1 - a.e1 * b.e0 + a.e2 * b.e012
    + a.e01 * b.s + a.e20 * b.e12 - a.e12 * b.e20 + a.e012 * b.e2
  e20 := a.s * b.e20 - a.e0 * b.e2 + a.e1 * b.e012 + a.e2 * b.e0
    - a.e01 * b.e12 + a.e20 * b.s + a.e12 * b.e01 + a.e012 * b.e1
  e12 := a.s * b.e12 + a.e1 * b.e2 - a.e2 * b.e1 + a.e12 * b.s
  e012 := a.s * b.e012 + a.e0 * b.e12 + a.e1 * b.e20 + a.e2 * b.e01
    + a.e01 * b.e2 + a.e20 * b.e1 + a.e12 * b.e0 + a.e012 * b.s

/-- Modelled from the spec (§4.1): the outer (wedge) product — the same
distribution keeping only the grade-raising terms (grade `k + s`), zero past
grade 3. -/
def outerProduct (a b : Multivector) : Multivector where
  s := a.s * b.s
  e0 := a.s * b.e0 + a.e0 * b.s
  e1 := a.s * b.e1 + a.e1 * b.s
  e2 := a.s * b.e2 + a.e2 * b.s
  e01 := a.s * b.e01 + a.e0 * b.e1 - a.e1 * b.e0 + a.e01 * b.s
  e20 := a.s * b.e20 + a.e2 * b.e0 - a.e0 * b.e2 + a.e20 * b.s
  e12 := a.s * b.e12 + a.e1 * b.e2 - a.e2 * b.e1 + a.e12 * b.s
  e012 := a.s * b.e012 + a.e0 * b.e12 + a.e1 * b.e20 + a.e2 * b.e01
    + a.e01 * b.e2 + a.e20 * b.e1 + a.e12 * b.e0 + a.e012 * b.s

/-- Modelled from the spec (§4.1, README "Duality"): Poincaré duality — each
blade coefficient moves to the complementary blade with `blade × dual(blade)
= e012`.  Over this basis (`1↔e012`, `e0↔e12`, `e1↔e20`, `e2↔e01`) no sign
changes occur, which is why the README picked it. -/
def dual (a : Multivector) : Multivector where
  s := a.e012
  e0 := a.e12
  e1 := a.e20
  e2 := a.e01
  e01 := a.e2
  e20 := a.e1
  e12 := a.e0
  e012 := a.s

/-- Modelled from the spec (§4.1, README "Involutions"): Clifford
conjugation, multiplying each grade-`k` part by `(-1)^(k(k+1)/2)`
(`+, -, -, +` for grades `0..3`). -/
def cliffordConjugate (a : Multivector) : Multivector where
  s := a.s
  e0 := -a.e0
  e1 := -a.e1
  e2 := -a.e2
  e01 := -a.e01
  e20 := -a.e20
  e12 := -a.e12
  e012 := a.e012

/-- Scalar rescaling of a multivector (used by `inverse`). -/
def smul (t : ℚ) (a : Multivector) : Multivector where
  s := t * a.s
  e0 := t * a.e0
  e1 := t * a.e1
  e2 := t * a.e2
  e01 := t * a.e01
  e20 := t * a.e20
  e12 := t * a.e12
  e012 := t * a.e012

/-- Modelled from the spec (§7): the single epsilon constant every degeneracy
comparison uses.  The spec fixes that there is exactly one such constant but
not its value; any positive rational serves, and none of the theorems below
depends on the choice. -/
def epsilon : ℚ := 1 / 1000000

/-- Modelled from the spec (§4.1): `A⁻¹ = conjugate(A) / scalar_part(A ·
conjugate(A))`, failing (none) when the scalar denominator's magnitude is
below epsilon; division only happens under the guard, so no NaN/Inf-like
outcome can surface. -/
def inverse (a : Multivector) : Option Multivector :=
  let denom := (geometricProduct a (cliffordConjugate a)).s
  if |denom| < epsilon then none else some (smul (1 / denom) (cliffordConjugate a))

/-- Modelled from the spec (§4.1, README "Meet and Join"): the meet is the
outer product. -/
def meet (a b : Multivector) : Multivector := outerProduct a b

/-- Modelled from the spec (§4.1, README "Meet and Join"): the join
(regressive product) `A & B = !(!B ^ !A)`, written out as the explicit
coefficient table a Ganja.js-style code generator emits for it. -/
def join (a b : Multivector) : Multivector where
  s := a.s * b.e012 + a.e0 * b.e12 + a.e1 * b.e20 + a.e2 * b.e01
    + a.e01 * b.e2 + a.e20 * b.e1 + a.e12 * b.e0 + a.e012 * b.s
  e0 := a.e0 * b.e012 + a.e01 * b.e20 - a.e20 * b.e01 + a.e012 * b.e0
  e1 := a.e1 * b.e012 + a.e12 * b.e01 - a.e01 * b.e12 + a.e012 * b.e1
  e2 := a.e2 * b.e012 + a.e20 * b.e12 - a.e12 * b.e20 + a.e012 * b.e2
  e01 := a.e01 * b.e012 + a.e012 * b.e01
  e20 := a.e20 * b.e012 + a.e012 * b.e20
  e12 := a.e12 * b.e012 + a.e012 * b.e12
  e012 := a.e012 * b.e012

/-- The zero multivector. -/
def zeroMV : Multivector := ⟨0, 0, 0, 0, 0, 0, 0, 0⟩

/-- The scalar basis blade `1`. -/
def oneMV : Multivector := ⟨1, 0, 0, 0, 0, 0, 0, 0⟩

/-- The basis vector `e0` (squares to 0). -/
def e0MV : Multivector := ⟨0, 1, 0, 0, 0, 0, 0, 0⟩

/-- The basis vector `e1` (squares to 1). -/
def e1MV : Multivector := ⟨0, 0, 1, 0, 0, 0, 0, 0⟩

/-- The basis vector `e2` (squares to 1). -/
def e2MV : Multivector := ⟨0, 0, 0, 1, 0, 0, 0, 0⟩

/-- The basis bivector `e01`. -/
def e01MV : Multivector := ⟨0, 0, 0, 0, 1, 0, 0, 0⟩

/-- The basis bivector `e20`. -/
def e20MV : Multivector := ⟨0, 0, 0, 0, 0, 1, 0, 0⟩

/-- The basis bivector `e12`. -/
def e12MV : Multivector := ⟨0, 0, 0, 0, 0, 0, 1, 0⟩

/-- The pseudoscalar `e012`. -/
def e012MV : Multivector := ⟨0, 0, 0, 0, 0, 0, 0, 1⟩

/-! ## Geometric primitives and the polygon clipper (modelled from the spec,
§4.2 / §4.4) -/

/-- A line `a·x + b·y + c = 0`: the crease representation the UI consumes
(`results.line.a/b/c`), i.e. the 1-vector `a·e1 + b·e2 + c·e0`. -/
structure Line where
  a : ℚ
  b : ℚ
  c : ℚ
deriving DecidableEq

/-- The sheet of paper: an ordered quadrilateral of four corner points
(`wasm.Paper(upperLeft, upperRight, lowerRight, lowerLeft)`). -/
structure Paper where
  upperLeft : Point
  upperRight : Point
  lowerRight : Point
  lowerLeft : Point
deriving DecidableEq

/-- The sheet's corner ring, in construction order. -/
def Paper.corners (p : Paper) : List Point :=
  [p.upperLeft, p.upperRight, p.lowerRight, p.lowerLeft]

/-- Modelled from the spec (§3): the Euclidean point `(x, y)` as the grade-2
multivector `y·e01 + x·e20 + 1·e12`. -/
def pointMV (x y : ℚ) : Multivector :=
  ⟨0, 0, 0, 0, y, x, 1, 0⟩

/-- The crease's line equation evaluated at a point (`a·x + b·y + c`). -/
def evalLine (l : Line) (p : Point) : ℚ :=
  l.a * p.x + l.b * p.y + l.c

/-- The planar cross product `u.x·v.y - u.y·v.x`; summed around a ring it
gives twice the polygon's signed area. -/
def cross2 (u v : Point) : ℚ :=
  u.x * v.y - u.y * v.x

/-- The sum of `cross2` over consecutive pairs of an (open) vertex path. -/
def pathSum : List Point → ℚ
  | [] => 0
  | [_] => 0
  | u :: v :: rest => cross2 u v + pathSum (v :: rest)

/-- Twice the signed area of the polygon with the given vertex ring (the
shoelace sum, closing the ring back to its first vertex). -/
def area2 : List Point → ℚ
  | [] => 0
  | x :: t => pathSum ((x :: t) ++ [x])

/-- Modelled from the spec (§4.4): the crease–edge intersection point of the
edge `u → v`, at parameter `t = f(u) / (f(u) - f(v))` along the edge, where
`f` is the crease's line equation. -/
def edgeIntersection (l : Line) (u v : Point) : Point :=
  let t := evalLine l u / (evalLine l u - evalLine l v)
  ⟨u.x + t * (v.x - u.x), u.y + t * (v.y - u.y)⟩

/-- The points a crossing edge `u → v` contributes beyond its own endpoints:
the intersection point when the endpoint values have strictly opposite signs,
nothing otherwise. -/
def augAfter (l : Line) (u v : Point) : List Point :=
  if evalLine l u * evalLine l v < 0 then [edgeIntersection l u v] else []

/-- The sheet's vertex ring with every crease crossing point inserted in
place: walk the remaining vertices, `s` being the ring's first vertex (the
wrap-around edge's target). -/
def augWalk (l : Line) : List Point → Point → List Point
  | [], _ => []
  | [u], s => u :: augAfter l u s
  | u :: v :: rest, s => u :: (augAfter l u v ++ augWalk l (v :: rest) s)

/-- The augmented ring of a polygon: its vertices with all crease crossing
points inserted, the last-to-first edge included. -/
def augmentRing (l : Line) (poly : List Point) : List Point :=
  match poly with
  | [] => []
  | x :: t => augWalk l (x :: t) x

/-- Modelled from the spec (§4.4): one pass of the clipper's walk.  Each
vertex `u` goes to the positive output when `f(u) ≥ 0` and to the negative
output when `f(u) ≤ 0`; each edge whose endpoint values have strictly
opposite signs contributes its crease intersection to both outputs at that
position.  `s` is the ring's first vertex, target of the wrap-around edge. -/
def clipWalk (l : Line) : List Point → Point → List Point × List Point
  | [], _ => ([], [])
  | [u], s =>
      ((if 0 ≤ evalLine l u then [u] else []) ++ augAfter l u s,
       (if evalLine l u ≤ 0 then [u] else []) ++ augAfter l u s)
  | u :: v :: rest, s =>
      let pn := clipWalk l (v :: rest) s
      ((if 0 ≤ evalLine l u then [u] else []) ++ augAfter l u v ++ pn.1,
       (if evalLine l u ≤ 0 then [u] else []) ++ augAfter l u v ++ pn.2)

/-- Modelled from the spec (§4.4): split a polygon by the crease into its
positive and negative sides, walking the vertex ring once. -/
def clip (l : Line) (poly : List Point) : List Point × List Point :=
  match poly with
  | [] => ([], [])
  | x :: t => clipWalk l (x :: t) x

/-- The vertices of `w` on the closed positive side of the crease, in order. -/
def posOf (l : Line) (w : List Point) : List Point :=
  w.filter fun p => decide (0 ≤ evalLine l p)

/-- The vertices of `w` on the closed negative side of the crease, in order. -/
def negOf (l : Line) (w : List Point) : List Point :=
  w.filter fun p => decide (evalLine l p ≤ 0)

/-- The vertices of `w` exactly on the crease, in order. -/
def zerOf (l : Line) (w : List Point) : List Point :=
  w.filter fun p => decide (evalLine l p = 0)

/-- Two consecutive ring vertices are compatible when their crease values do
not have strictly opposite signs (no crossing between them is pending). -/
def pairOK (l : Line) (u v : Point) : Prop :=
  ¬ (evalLine l u * evalLine l v < 0)

/-- The cross term a path contributes between its last and first vertices:
zero when either end is missing. -/
def optCross : Option Point → Option Point → ℚ
  | some u, some v => cross2 u v
  | _, _ => 0

/-- The wrap-around term of a ring: `cross2` of its last and first vertices. -/
def lastTerm (w : List Point) : ℚ :=
  optCross w.getLast? w.head?

/-! ## The axiom solvers (modelled from the spec, §4.2 / §4.3 / §6) -/

/-- Modelled from the spec (§3, §6): a successful solve — the crease line and
the two polygons it cuts the sheet into. -/
structure AxiomResult where
  line : Line
  positive : List Point
  negative : List Point
deriving DecidableEq

/-- Modelled from the spec (§4.2): `lineThrough(p0, p1) = normalize(join(p0,
p1))`, failing when the join is the zero multivector within epsilon (the
squared Euclidean norm `a² + b²` of its direction part is below epsilon).
The positive scale factor `1/√(a² + b²)` of the normalization is irrational
and is omitted here: it changes neither the success decision nor the line's
zero set, which is all the theorems below consume. -/
def lineThrough (p0 p1 : Point) : Option Line :=
  let j := join (pointMV p0.x p0.y) (pointMV p1.x p1.y)
  if j.e1 ^ 2 + j.e2 ^ 2 < epsilon then none
  else some ⟨j.e1, j.e2, j.e0⟩

/-- Modelled from the spec (§4.3, row 1): `axiom_1(paper, p0, p1)` — the
unique fold through both points: crease `lineThrough(p0, p1)`, degenerate
(none) when the points coincide within epsilon; on success the sheet is
clipped by the crease. -/
def axiom_1 (paper : Paper) (p0 p1 : Point) : Option AxiomResult :=
  (lineThrough p0 p1).map fun l =>
    ⟨l, (clip l paper.corners).1, (clip l paper.corners).2⟩

/-- Modelled from the spec (§4.3, row 2): `axiom_2(paper, p0, p1)` — the fold
placing `p0` onto `p1`: the crease is perpendicular to `p1 - p0` and passes
through `midpoint(p0, p1)`; degenerate (none) when the points coincide within
epsilon. -/
def axiom_2 (paper : Paper) (p0 p1 : Point) : Option AxiomResult :=
  let dx := p1.x - p0.x
  let dy := p1.y - p0.y
  let mx := (p0.x + p1.x) / 2
  let my := (p0.y + p1.y) / 2
  if dx ^ 2 + dy ^ 2 < epsilon then none
  else
    let l : Line := ⟨dx, dy, -(dx * mx + dy * my)⟩
    some ⟨l, (clip l paper.corners).1, (clip l paper.corners).2⟩

/-! ## Theorems: the UI layer -/

/-- C1: every solve triggered from the UI invokes the selected axiom function
with the paper struct as the first argument, then the `wasm.Point`s of all
`point`-classed children in document order, then the lines of all
`segment`-classed children in document order — all points positionally before
all lines. -/
theorem callCurrentAxiom_argument_order (children : List SvgElem) :
    callCurrentAxiomArgs children =
      [WasmArg.paperArg] ++ pointCoords children ++ segmentEndpointCoords children
    ∧ (∀ a ∈ pointCoords children, a.isPointArg = true)
    ∧ (∀ a ∈ segmentEndpointCoords children, a.isSegmentArg = true) := by
  refine ⟨rfl, ?_, ?_⟩
  · intro a ha
    simp only [pointCoords, List.mem_map] at ha
    obtain ⟨e, -, h⟩ := ha
    subst h
    rfl
  · intro a ha
    simp only [segmentEndpointCoords, List.mem_map] at ha
    obtain ⟨e, -, h⟩ := ha
    subst h
    rfl

/-- C2 counterexample: a non-null result whose `line` field is null does not
take the no-solution branch — reading `results.line.a` raises a TypeError
instead, because the guard never checks `results.line` itself. -/
theorem handleResults_null_line_raises :
    handleResults (some ⟨none, [], []⟩) = Except.error () := rfl

/-- C2 (amended): a null result, or a non-null `line` object with any of
`a`, `b`, `c` null, takes the no-solution branch without error; when `a`,
`b`, `c` are all non-null the crease is rebuilt from them and the polygons
are plotted from the returned vertex lists; but a non-null result whose
`line` field is itself null raises a TypeError. -/
theorem handleResults_branches :
    handleResults none = Except.ok UIOutcome.noSolution
    ∧ (∀ r : ResultObj, r.line = none → handleResults (some r) = Except.error ())
    ∧ (∀ r : ResultObj, ∀ l : LineObj, r.line = some l →
        ((l.a = none ∨ l.b = none ∨ l.c = none) →
          handleResults (some r) = Except.ok UIOutcome.noSolution)
        ∧ (∀ a b c : ℚ, l.a = some a → l.b = some b → l.c = some c →
            handleResults (some r) = Except.ok (UIOutcome.solution a b c
              (r.positive.map fun p => (p.x, p.y))
              (r.negative.map fun p => (p.x, p.y))))) := by
  refine ⟨rfl, ?_, ?_⟩
  · intro r h
    obtain ⟨rl, rpos, rneg⟩ := r
    cases h
    rfl
  · intro r l h
    obtain ⟨rl, rpos, rneg⟩ := r
    cases h
    obtain ⟨la, lb, lc⟩ := l
    cases la <;> cases lb <;> cases lc <;>
      refine ⟨fun h1 => ?_, fun a b c ha hb hc => ?_⟩ <;>
        simp_all [handleResults]

/-- C3: the keydown handler accepts every key 1–7, but the dispatch array has
only five entries (axioms 1–5); the accepted keys 6 and 7 produce indices 5
and 6, past the end of the array. -/
theorem keydown_accepts_keys_past_dispatch_array :
    isValidAxiom "6" = true ∧ isValidAxiom "7" = true
    ∧ axiomSpecifications.length = 5
    ∧ axiomSpecifications.map AxiomSpecification.fn
        = [AxiomFn.fn1, AxiomFn.fn2, AxiomFn.fn3, AxiomFn.fn4, AxiomFn.fn5]
    ∧ axiomSpecifications.get? (keyIndex "6") = none
    ∧ axiomSpecifications.get? (keyIndex "7") = none := by
  have h6 : keyIndex "6" = 5 := by decide
  have h7 : keyIndex "7" = 6 := by decide
  refine ⟨rfl, rfl, rfl, rfl, ?_, ?_⟩
  · rw [h6]; rfl
  · rw [h7]; rfl

/-- C10: after `checkPaperBoundaries` computes the `handler.move(x, y)`
coordinates, a dragged box no larger than the paper's bounds lies entirely
inside them. -/
theorem checkPaperBoundaries_stays_inside (pb box : BBox)
    (hw : box.w ≤ pb.w) (hh : box.h ≤ pb.h) :
    pb.x ≤ (checkPaperBoundaries pb box).1
    ∧ (checkPaperBoundaries pb box).1 + box.w ≤ pb.x2
    ∧ pb.y ≤ (checkPaperBoundaries pb box).2
    ∧ (checkPaperBoundaries pb box).2 + box.h ≤ pb.y2 := by
  refine ⟨?_, ?_, ?_, ?_⟩ <;>
    (simp only [checkPaperBoundaries, BBox.x2, BBox.y2] at *) <;>
      split_ifs <;> simp_all <;> linarith

/-- Witness for C10 at a concrete input: a 4×4 box dragged above and left of
a 10×10 paper is moved back inside. -/
theorem checkPaperBoundaries_stays_inside_witness :
    (0 : ℚ) ≤ (checkPaperBoundaries ⟨0, 0, 10, 10⟩ ⟨-5, 20, 4, 4⟩).1
    ∧ (checkPaperBoundaries ⟨0, 0, 10, 10⟩ ⟨-5, 20, 4, 4⟩).1 + (4 : ℚ) ≤ BBox.x2 ⟨0, 0, 10, 10⟩
    ∧ (0 : ℚ) ≤ (checkPaperBoundaries ⟨0, 0, 10, 10⟩ ⟨-5, 20, 4, 4⟩).2
    ∧ (checkPaperBoundaries ⟨0, 0, 10, 10⟩ ⟨-5, 20, 4, 4⟩).2 + (4 : ℚ) ≤ BBox.y2 ⟨0, 0, 10, 10⟩ :=
  checkPaperBoundaries_stays_inside ⟨0, 0, 10, 10⟩ ⟨-5, 20, 4, 4⟩ (by norm_num) (by norm_num)

/-! ## Theorems: the algebra core -/

/-- C4: duality is an involution — `dual (dual A) = A` for every multivector,
exactly (the chosen basis makes the Poincaré-duality sign table all `+1`). -/
theorem dual_dual (A : Multivector) : dual (dual A) = A := rfl

/-- C5: the meet of two multivectors is their outer product, and the join is
the dual of the outer product of the duals taken in reversed operand order:
`join A B = dual (outerProduct (dual B) (dual A))`. -/
theorem meet_outer_join_dual (A B : Multivector) :
    meet A B = outerProduct A B
    ∧ join A B = dual (outerProduct (dual B) (dual A)) := by
  refine ⟨rfl, ?_⟩
  ext <;> simp [join, dual, outerProduct] <;> ring

/-- C8: `inverse` fails (none) exactly when the magnitude of the scalar
denominator `scalar_part(A · conjugate(A))` is below the fixed epsilon, and
whenever it succeeds that denominator is nonzero — the division is guarded,
so the operation cannot surface a NaN/Inf-like value. -/
theorem inverse_none_iff_denominator_small (A : Multivector) :
    (inverse A = none ↔
      |(geometricProduct A (cliffordConjugate A)).s| < epsilon)
    ∧ ∀ B, inverse A = some B →
        (geometricProduct A (cliffordConjugate A)).s ≠ 0 := by
  constructor
  · simp only [inverse]
    split_ifs with h
    · simp [h]
    · simp [h]
  · intro B hB hz
    rw [inverse] at hB
    rw [hz] at hB
    norm_num [epsilon] at hB
    exact Option.noConfusion hB

/-! ## Theorems: the solvers -/

/-- C7: two points that coincide within epsilon make axiom 1 and axiom 2
return none (no crease); the modelled solvers are total functions, so no
degenerate input raises. -/
theorem coincident_points_no_crease (paper : Paper) (p0 p1 : Point)
    (h : (p1.x - p0.x) ^ 2 + (p1.y - p0.y) ^ 2 < epsilon) :
    axiom_1 paper p0 p1 = none ∧ axiom_2 paper p0 p1 = none := by
  constructor
  · have hj : (join (pointMV p0.x p0.y) (pointMV p1.x p1.y)).e1 ^ 2
        + (join (pointMV p0.x p0.y) (pointMV p1.x p1.y)).e2 ^ 2
        = (p1.x - p0.x) ^ 2 + (p1.y - p0.y) ^ 2 := by
      simp [join, pointMV]
      ring
    simp only [axiom_1, lineThrough, hj, if_pos h, Option.map_none']
  · simp only [axiom_2, if_pos h]

/-- Witness for C7: the coincident pair `(2, 3), (2, 3)` yields none for both
axiom 1 and axiom 2. -/
theorem coincident_points_no_crease_witness :
    axiom_1 ⟨⟨0, 0⟩, ⟨1, 0⟩, ⟨1, 1⟩, ⟨0, 1⟩⟩ ⟨2, 3⟩ ⟨2, 3⟩ = none
    ∧ axiom_2 ⟨⟨0, 0⟩, ⟨1, 0⟩, ⟨1, 1⟩, ⟨0, 1⟩⟩ ⟨2, 3⟩ ⟨2, 3⟩ = none :=
  coincident_points_no_crease ⟨⟨0, 0⟩, ⟨1, 0⟩, ⟨1, 1⟩, ⟨0, 1⟩⟩ ⟨2, 3⟩ ⟨2, 3⟩
    (by norm_num [epsilon])

/-- C9: a solve call is deterministic and idempotent — two calls of a solver
with identical paper and point inputs yield identical outputs; the modelled
solvers are state-free pure functions of their arguments alone. -/
theorem solve_deterministic (paper paper' : Paper) (p0 p0' p1 p1' : Point)
    (hpaper : paper = paper') (h0 : p0 = p0') (h1 : p1 = p1') :
    axiom_1 paper p0 p1 = axiom_1 paper' p0' p1'
    ∧ axiom_2 paper p0 p1 = axiom_2 paper' p0' p1' := by
  subst hpaper
  subst h0
  subst h1
  exact ⟨rfl, rfl⟩

/-- Witness for C9 at a concrete input: calling axiom 1 and axiom 2 twice on
the unit-square paper with the same two points gives the same results. -/
theorem solve_deterministic_witness :
    axiom_1 ⟨⟨0, 0⟩, ⟨1, 0⟩, ⟨1, 1⟩, ⟨0, 1⟩⟩ ⟨0, 0⟩ ⟨1, 1⟩
      = axiom_1 ⟨⟨0, 0⟩, ⟨1, 0⟩, ⟨1, 1⟩, ⟨0, 1⟩⟩ ⟨0, 0⟩ ⟨1, 1⟩
    ∧ axiom_2 ⟨⟨0, 0⟩, ⟨1, 0⟩, ⟨1, 1⟩, ⟨0, 1⟩⟩ ⟨0, 0⟩ ⟨1, 1⟩
      = axiom_2 ⟨⟨0, 0⟩, ⟨1, 0⟩, ⟨1, 1⟩, ⟨0, 1⟩⟩ ⟨0, 0⟩ ⟨1, 1⟩ :=
  solve_deterministic _ _ _ _ _ _ rfl rfl rfl

/-! ## Theorems: the polygon clipper -/

/-- Unfolding `pathSum` one vertex at a time: the head contributes its cross
term with the next vertex, when there is one. -/
theorem pathSum_cons (x : Point) (w : List Point) :
    pathSum (x :: w) = optCross (some x) w.head? + pathSum w := by
  cases w <;> simp [pathSum, optCross]

/-- Closing a path with one extra vertex adds the cross term from the last
vertex to it. -/
theorem pathSum_append_single (w : List Point) (z : Point) :
    pathSum (w ++ [z]) = pathSum w + optCross w.getLast? (some z) := by
  induction w with
  | nil => simp [pathSum, optCross]
  | cons x t ih =>
    cases t with
    | nil => simp [pathSum, optCross]
    | cons y t' =>
      have h1 : (x :: y :: t') ++ [z] = x :: ((y :: t') ++ [z]) := by simp
      have h2 : ((y :: t') ++ [z]).head? = some y := rfl
      have h3 : (y :: t').head? = some y := rfl
      rw [h1, pathSum_cons, ih, h2, pathSum_cons x (y :: t'), h3,
        List.getLast?_cons_cons]
      ring

/-- The shoelace sum of a ring is its open path sum plus the wrap-around
term. -/
theorem area2_eq_pathSum (w : List Point) : area2 w = pathSum w + lastTerm w := by
  cases w with
  | nil => simp [area2, pathSum, lastTerm, optCross]
  | cons x t =>
    simp only [area2, lastTerm]
    rw [pathSum_append_single]
    rfl

/-- `posOf` on a cons. -/
theorem posOf_cons (l : Line) (x : Point) (t : List Point) :
    posOf l (x :: t)
      = if 0 ≤ evalLine l x then x :: posOf l t else posOf l t := by
  simp only [posOf, List.filter_cons, decide_eq_true_eq]

/-- `negOf` on a cons. -/
theorem negOf_cons (l : Line) (x : Point) (t : List Point) :
    negOf l (x :: t)
      = if evalLine l x ≤ 0 then x :: negOf l t else negOf l t := by
  simp only [negOf, List.filter_cons, decide_eq_true_eq]

/-- `zerOf` on a cons. -/
theorem zerOf_cons (l : Line) (x : Point) (t : List Point) :
    zerOf l (x :: t)
      = if evalLine l x = 0 then x :: zerOf l t else zerOf l t := by
  simp only [zerOf, List.filter_cons, decide_eq_true_eq]

/-- A head on the closed positive side stays the head of `posOf`. -/
theorem posOf_head (l : Line) (x : Point) (t : List Point)
    (hx : 0 ≤ evalLine l x) : (posOf l (x :: t)).head? = some x := by
  rw [posOf_cons, if_pos hx]
  rfl

/-- A head on the closed negative side stays the head of `negOf`. -/
theorem negOf_head (l : Line) (x : Point) (t : List Point)
    (hx : evalLine l x ≤ 0) : (negOf l (x :: t)).head? = some x := by
  rw [negOf_cons, if_pos hx]
  rfl

/-- A head on the crease stays the head of `zerOf`. -/
theorem zerOf_head (l : Line) (x : Point) (t : List Point)
    (hx : evalLine l x = 0) : (zerOf l (x :: t)).head? = some x := by
  rw [zerOf_cons, if_pos hx]
  rfl

/-- In a ring walk with no pending crossing, starting strictly positive, the
first vertex on the closed negative side is the first vertex on the crease. -/
theorem negOf_head_eq_zerOf_head (l : Line) :
    ∀ (w : List Point), List.Chain' (pairOK l) w →
      ∀ h, w.head? = some h → 0 < evalLine l h →
        (negOf l w).head? = (zerOf l w).head? := by
  intro w
  induction w with
  | nil => intro _ h hh _; cases hh
  | cons x t ih =>
    intro hch h hh hpos
    rw [List.head?_cons] at hh
    injection hh with hh
    subst hh
    rw [negOf_cons, zerOf_cons, if_neg (by intro h0; linarith),
      if_neg (by intro h0; linarith)]
    cases t with
    | nil => rfl
    | cons y t' =>
      rcases List.chain'_cons.mp hch with ⟨hxy, hch'⟩
      have hy : 0 ≤ evalLine l y := by
        by_contra hy
        push_neg at hy
        exact hxy (mul_neg_of_pos_of_neg hpos hy)
      rcases eq_or_lt_of_le hy with hy0 | hy0
      · rw [negOf_head l y t' (le_of_eq hy0.symm), zerOf_head l y t' hy0.symm]
      · exact ih hch' y rfl hy0

/-- Mirror image: starting strictly negative, the first vertex on the closed
positive side is the first vertex on the crease. -/
theorem posOf_head_eq_zerOf_head (l : Line) :
    ∀ (w : List Point), List.Chain' (pairOK l) w →
      ∀ h, w.head? = some h → evalLine l h < 0 →
        (posOf l w).head? = (zerOf l w).head? := by
  intro w
  induction w with
  | nil => intro _ h hh _; cases hh
  | cons x t ih =>
    intro hch h hh hneg
    rw [List.head?_cons] at hh
    injection hh with hh
    subst hh
    rw [posOf_cons, zerOf_cons, if_neg (by intro h0; linarith),
      if_neg (by intro h0; linarith)]
    cases t with
    | nil => rfl
    | cons y t' =>
      rcases List.chain'_cons.mp hch with ⟨hxy, hch'⟩
      have hy : evalLine l y ≤ 0 := by
        by_contra hy
        push_neg at hy
        exact hxy (mul_neg_of_neg_of_pos hneg hy)
      rcases eq_or_lt_of_le hy with hy0 | hy0
      · rw [posOf_head l y t' (le_of_eq hy0.symm), zerOf_head l y t' hy0]
      · exact ih hch' y rfl hy0

/-- `pairOK` is preserved by reversing the walk (it is symmetric). -/
theorem chain'_pairOK_reverse (l : Line) (w : List Point)
    (h : List.Chain' (pairOK l) w) : List.Chain' (pairOK l) w.reverse := by
  rw [List.chain'_reverse]
  refine h.imp fun a b hab => ?_
  show pairOK l b a
  simpa [pairOK, mul_comm] using hab

/-- Filtering commutes with reversing. -/
theorem posOf_reverse (l : Line) (w : List Point) :
    posOf l w.reverse = (posOf l w).reverse := by
  simp [posOf, List.filter_reverse]

/-- Filtering commutes with reversing. -/
theorem negOf_reverse (l : Line) (w : List Point) :
    negOf l w.reverse = (negOf l w).reverse := by
  simp [negOf, List.filter_reverse]

/-- Filtering commutes with reversing. -/
theorem zerOf_reverse (l : Line) (w : List Point) :
    zerOf l w.reverse = (zerOf l w).reverse := by
  simp [zerOf, List.filter_reverse]

/-- Ending strictly positive, the last vertex on the closed negative side is
the last vertex on the crease. -/
theorem negOf_last_eq_zerOf_last (l : Line) (w : List Point)
    (hch : List.Chain' (pairOK l) w) (u : Point) (hu : w.getLast? = some u)
    (hpos : 0 < evalLine l u) :
    (negOf l w).getLast? = (zerOf l w).getLast? := by
  have h1 : w.reverse.head? = some u := by rw [List.head?_reverse, hu]
  have h2 := negOf_head_eq_zerOf_head l w.reverse
    (chain'_pairOK_reverse l w hch) u h1 hpos
  rw [negOf_reverse, zerOf_reverse, List.head?_reverse, List.head?_reverse] at h2
  exact h2

/-- Ending strictly negative, the last vertex on the closed positive side is
the last vertex on the crease. -/
theorem posOf_last_eq_zerOf_last (l : Line) (w : List Point)
    (hch : List.Chain' (pairOK l) w) (u : Point) (hu : w.getLast? = some u)
    (hneg : evalLine l u < 0) :
    (posOf l w).getLast? = (zerOf l w).getLast? := by
  have h1 : w.reverse.head? = some u := by rw [List.head?_reverse, hu]
  have h2 := posOf_head_eq_zerOf_head l w.reverse
    (chain'_pairOK_reverse l w hch) u h1 hneg
  rw [posOf_reverse, zerOf_reverse, List.head?_reverse, List.head?_reverse] at h2
  exact h2

/-- A last vertex on the closed positive side stays the last of `posOf`. -/
theorem posOf_last (l : Line) (w : List Point) (u : Point)
    (hu : w.getLast? = some u) (h : 0 ≤ evalLine l u) :
    (posOf l w).getLast? = some u := by
  have h1 : w.reverse.head? = some u := by rw [List.head?_reverse, hu]
  rw [← List.head?_reverse, ← posOf_reverse]
  cases hw : w.reverse with
  | nil => rw [hw] at h1; cases h1
  | cons a t =>
    rw [hw] at h1
    injection h1 with h1
    subst h1
    exact posOf_head l a t h

/-- A last vertex on the closed negative side stays the last of `negOf`. -/
theorem negOf_last (l : Line) (w : List Point) (u : Point)
    (hu : w.getLast? = some u) (h : evalLine l u ≤ 0) :
    (negOf l w).getLast? = some u := by
  have h1 : w.reverse.head? = some u := by rw [List.head?_reverse, hu]
  rw [← List.head?_reverse, ← negOf_reverse]
  cases hw : w.reverse with
  | nil => rw [hw] at h1; cases h1
  | cons a t =>
    rw [hw] at h1
    injection h1 with h1
    subst h1
    exact negOf_head l a t h

/-- A last vertex on the crease stays the last of `zerOf`. -/
theorem zerOf_last (l : Line) (w : List Point) (u : Point)
    (hu : w.getLast? = some u) (h : evalLine l u = 0) :
    (zerOf l w).getLast? = some u := by
  have h1 : w.reverse.head? = some u := by rw [List.head?_reverse, hu]
  rw [← List.head?_reverse, ← zerOf_reverse]
  cases hw : w.reverse with
  | nil => rw [hw] at h1; cases h1
  | cons a t =>
    rw [hw] at h1
    injection h1 with h1
    subst h1
    exact zerOf_head l a t h

/-- The open-path half of the splitting identity: along a walk with no
pending crossings, the path sums of the two closed sides add up to the path
sum of the walk plus the path sum of its on-crease vertices. -/
theorem pathSum_filter_split (l : Line) :
    ∀ (w : List Point), List.Chain' (pairOK l) w →
      pathSum (posOf l w) + pathSum (negOf l w)
        = pathSum w + pathSum (zerOf l w) := by
  intro w
  induction w with
  | nil => intro _; rfl
  | cons x t ih =>
    intro hch
    have hcht : List.Chain' (pairOK l) t := hch.tail
    rcases lt_trichotomy (evalLine l x) 0 with hx | hx | hx
    · rw [posOf_cons, negOf_cons, zerOf_cons, if_neg (by intro h0; linarith),
        if_pos (le_of_lt hx), if_neg (by intro h0; linarith)]
      rw [pathSum_cons x (negOf l t), pathSum_cons x t]
      have hh : optCross (some x) (negOf l t).head? = optCross (some x) t.head? := by
        cases t with
        | nil => rfl
        | cons y t' =>
          rcases List.chain'_cons.mp hch with ⟨hxy, -⟩
          have hy : evalLine l y ≤ 0 := by
            by_contra hy
            push_neg at hy
            exact hxy (mul_neg_of_neg_of_pos hx hy)
          rw [negOf_head l y t' hy]
          rfl
      have hrec := ih hcht
      linarith [hh, hrec]
    · rw [posOf_cons, negOf_cons, zerOf_cons, if_pos (le_of_eq hx.symm),
        if_pos (le_of_eq hx), if_pos hx]
      rw [pathSum_cons x (posOf l t), pathSum_cons x (negOf l t),
        pathSum_cons x (zerOf l t), pathSum_cons x t]
      have hh : optCross (some x) (posOf l t).head?
          + optCross (some x) (negOf l t).head?
          = optCross (some x) t.head? + optCross (some x) (zerOf l t).head? := by
        cases t with
        | nil => rfl
        | cons y t' =>
          rcases lt_trichotomy (evalLine l y) 0 with hy | hy | hy
          · rw [negOf_head l y t' (le_of_lt hy),
              posOf_head_eq_zerOf_head l (y :: t') hcht y rfl hy, List.head?_cons]
            ring
          · rw [posOf_head l y t' (le_of_eq hy.symm), negOf_head l y t' (le_of_eq hy),
              zerOf_head l y t' hy, List.head?_cons]
          · rw [posOf_head l y t' (le_of_lt hy),
              negOf_head_eq_zerOf_head l (y :: t') hcht y rfl hy, List.head?_cons]
      have hrec := ih hcht
      linarith
    · rw [posOf_cons, negOf_cons, zerOf_cons, if_pos (le_of_lt hx),
        if_neg (by intro h0; linarith), if_neg (by intro h0; linarith)]
      rw [pathSum_cons x (posOf l t), pathSum_cons x t]
      have hh : optCross (some x) (posOf l t).head? = optCross (some x) t.head? := by
        cases t with
        | nil => rfl
        | cons y t' =>
          rcases List.chain'_cons.mp hch with ⟨hxy, -⟩
          have hy : 0 ≤ evalLine l y := by
            by_contra hy
            push_neg at hy
            exact hxy (mul_neg_of_pos_of_neg hx hy)
          rw [posOf_head l y t' hy]
          rfl
      have hrec := ih hcht
      linarith [hh, hrec]

/-- The wrap-around half of the splitting identity: with a compatible seam
(last-to-first) pair, the wrap-around terms of the two sides add up to those
of the walk and of its on-crease vertices. -/
theorem lastTerm_filter_split (l : Line) (w : List Point)
    (hch : List.Chain' (pairOK l) w)
    (hcyc : ∀ u, w.getLast? = some u → ∀ v, w.head? = some v → pairOK l u v) :
    lastTerm (posOf l w) + lastTerm (negOf l w)
      = lastTerm w + lastTerm (zerOf l w) := by
  cases w with
  | nil => rfl
  | cons x t =>
    obtain ⟨u, hu⟩ : ∃ u, (x :: t).getLast? = some u := by
      cases hgl : (x :: t).getLast? with
      | some u => exact ⟨u, rfl⟩
      | none => simp at hgl
    have hseam : pairOK l u x := hcyc u hu x rfl
    have hhx : (x :: t).head? = some x := rfl
    rcases lt_trichotomy (evalLine l u) 0 with hu0 | hu0 | hu0 <;>
      rcases lt_trichotomy (evalLine l x) 0 with hx0 | hx0 | hx0
    · -- f u < 0, f x < 0
      have e1 : (posOf l (x :: t)).getLast? = (zerOf l (x :: t)).getLast? :=
        posOf_last_eq_zerOf_last l (x :: t) hch u hu hu0
      have e2 : (posOf l (x :: t)).head? = (zerOf l (x :: t)).head? :=
        posOf_head_eq_zerOf_head l (x :: t) hch x rfl hx0
      have e3 : (negOf l (x :: t)).getLast? = some u :=
        negOf_last l (x :: t) u hu (le_of_lt hu0)
      have e4 : (negOf l (x :: t)).head? = some x := negOf_head l x t (le_of_lt hx0)
      simp only [lastTerm, e1, e2, e3, e4, hu, hhx]
      ring
    · -- f u < 0, f x = 0
      have e1 : (posOf l (x :: t)).getLast? = (zerOf l (x :: t)).getLast? :=
        posOf_last_eq_zerOf_last l (x :: t) hch u hu hu0
      have e2 : (posOf l (x :: t)).head? = some x := posOf_head l x t (le_of_eq hx0.symm)
      have e2' : (zerOf l (x :: t)).head? = some x := zerOf_head l x t hx0
      have e3 : (negOf l (x :: t)).getLast? = some u :=
        negOf_last l (x :: t) u hu (le_of_lt hu0)
      have e4 : (negOf l (x :: t)).head? = some x := negOf_head l x t (le_of_eq hx0)
      simp only [lastTerm, e1, e2, e2', e3, e4, hu, hhx]
      ring
    · -- f u < 0, f x > 0 : impossible around the seam
      exact absurd (mul_neg_of_neg_of_pos hu0 hx0) hseam
    · -- f u = 0, f x < 0
      have e1 : (posOf l (x :: t)).getLast? = some u :=
        posOf_last l (x :: t) u hu (le_of_eq hu0.symm)
      have e1' : (zerOf l (x :: t)).getLast? = some u := zerOf_last l (x :: t) u hu hu0
      have e2 : (posOf l (x :: t)).head? = (zerOf l (x :: t)).head? :=
        posOf_head_eq_zerOf_head l (x :: t) hch x rfl hx0
      have e3 : (negOf l (x :: t)).getLast? = some u :=
        negOf_last l (x :: t) u hu (le_of_eq hu0)
      have e4 : (negOf l (x :: t)).head? = some x := negOf_head l x t (le_of_lt hx0)
      simp only [lastTerm, e1, e1', e2, e3, e4, hu, hhx]
      ring
    · -- f u = 0, f x = 0
      have e1 : (posOf l (x :: t)).getLast? = some u :=
        posOf_last l (x :: t) u hu (le_of_eq hu0.symm)
      have e1' : (zerOf l (x :: t)).getLast? = some u := zerOf_last l (x :: t) u hu hu0
      have e2 : (posOf l (x :: t)).head? = some x := posOf_head l x t (le_of_eq hx0.symm)
      have e2' : (zerOf l (x :: t)).head? = some x := zerOf_head l x t hx0
      have e3 : (negOf l (x :: t)).getLast? = some u :=
        negOf_last l (x :: t) u hu (le_of_eq hu0)
      have e4 : (negOf l (x :: t)).head? = some x := negOf_head l x t (le_of_eq hx0)
      simp only [lastTerm, e1, e1', e2, e2', e3, e4, hu, hhx]
    · -- f u = 0, f x > 0
      have e1 : (posOf l (x :: t)).getLast? = some u :=
        posOf_last l (x :: t) u hu (le_of_eq hu0.symm)
      have e2 : (posOf l (x :: t)).head? = some x := posOf_head l x t (le_of_lt hx0)
      have e3 : (negOf l (x :: t)).getLast? = some u :=
        negOf_last l (x :: t) u hu (le_of_eq hu0)
      have e3' : (zerOf l (x :: t)).getLast? = some u := zerOf_last l (x :: t) u hu hu0
      have e4 : (negOf l (x :: t)).head? = (zerOf l (x :: t)).head? :=
        negOf_head_eq_zerOf_head l (x :: t) hch x rfl hx0
      simp only [lastTerm, e1, e2, e3, e3', e4, hu, hhx]
    · -- f u > 0, f x < 0 : impossible around the seam
      exact absurd (mul_neg_of_pos_of_neg hu0 hx0) hseam
    · -- f u > 0, f x = 0
      have e1 : (posOf l (x :: t)).getLast? = some u :=
        posOf_last l (x :: t) u hu (le_of_lt hu0)
      have e2 : (posOf l (x :: t)).head? = some x := posOf_head l x t (le_of_eq hx0.symm)
      have e3 : (negOf l (x :: t)).getLast? = (zerOf l (x :: t)).getLast? :=
        negOf_last_eq_zerOf_last l (x :: t) hch u hu hu0
      have e4 : (negOf l (x :: t)).head? = some x := negOf_head l x t (le_of_eq hx0)
      have e4' : (zerOf l (x :: t)).head? = some x := zerOf_head l x t hx0
      simp only [lastTerm, e1, e2, e3, e4, e4', hu, hhx]
    · -- f u > 0, f x > 0
      have e1 : (posOf l (x :: t)).getLast? = some u :=
        posOf_last l (x :: t) u hu (le_of_lt hu0)
      have e2 : (posOf l (x :: t)).head? = some x := posOf_head l x t (le_of_lt hx0)
      have e3 : (negOf l (x :: t)).getLast? = (zerOf l (x :: t)).getLast? :=
        negOf_last_eq_zerOf_last l (x :: t) hch u hu hu0
      have e4 : (negOf l (x :: t)).head? = (zerOf l (x :: t)).head? :=
        negOf_head_eq_zerOf_head l (x :: t) hch x rfl hx0
      simp only [lastTerm, e1, e2, e3, e4, hu, hhx]

/-- The cyclic splitting identity: around a ring with no pending crossings
(seam included), the shoelace sums of the two closed sides add up to the
shoelace sum of the ring plus that of its on-crease vertices. -/
theorem area2_filter_split (l : Line) (w : List Point)
    (hch : List.Chain' (pairOK l) w)
    (hcyc : ∀ u, w.getLast? = some u → ∀ v, w.head? = some v → pairOK l u v) :
    area2 (posOf l w) + area2 (negOf l w) = area2 w + area2 (zerOf l w) := by
  rw [area2_eq_pathSum, area2_eq_pathSum, area2_eq_pathSum, area2_eq_pathSum]
  have h1 := pathSum_filter_split l w hch
  have h2 := lastTerm_filter_split l w hch hcyc
  linarith

/-- A path whose cross terms telescope through a potential `g` sums to the
difference of `g` at its endpoints. -/
theorem pathSum_telescope (g : Point → ℚ) :
    ∀ (z : List Point) (x q : Point),
      (∀ u ∈ x :: z ++ [q], ∀ v ∈ x :: z ++ [q], cross2 u v = g v - g u) →
      pathSum (x :: z ++ [q]) = g q - g x := by
  intro z
  induction z with
  | nil =>
    intro x q h
    have := h x (by simp) q (by simp)
    simpa [pathSum] using this
  | cons y z' ih =>
    intro x q h
    have hxy : cross2 x y = g y - g x := h x (by simp) y (by simp)
    have hsub : ∀ p, p ∈ y :: z' ++ [q] → p ∈ x :: (y :: z') ++ [q] := by
      intro p hp
      simp only [List.cons_append, List.mem_cons] at hp ⊢
      tauto
    have hrec : pathSum (y :: z' ++ [q]) = g q - g y :=
      ih y q fun u hu v hv => h u (hsub u hu) v (hsub v hv)
    have hshape : pathSum (x :: (y :: z') ++ [q])
        = cross2 x y + pathSum (y :: z' ++ [q]) := rfl
    rw [hshape, hxy, hrec]
    ring

/-- A ring whose cross terms telescope through a potential has zero shoelace
sum. -/
theorem area2_zero_of_diffs (g : Point → ℚ) (w : List Point)
    (h : ∀ u ∈ w, ∀ v ∈ w, cross2 u v = g v - g u) : area2 w = 0 := by
  cases w with
  | nil => rfl
  | cons x t =>
    have hmem : ∀ p, p ∈ x :: t ++ [x] → p ∈ x :: t := by
      intro p hp
      simp only [List.mem_cons, List.mem_append, List.mem_singleton] at hp ⊢
      tauto
    have := pathSum_telescope g t x x fun u hu v hv =>
      h u (hmem u hu) v (hmem v hv)
    have hshape : area2 (x :: t) = pathSum (x :: t ++ [x]) := rfl
    rw [hshape, this]
    ring

/-- Vertices lying exactly on a genuine line (nonzero normal) enclose zero
signed area. -/
theorem area2_zero_of_on_line (l : Line) (hl : l.a ≠ 0 ∨ l.b ≠ 0)
    (z : List Point) (hz : ∀ p ∈ z, evalLine l p = 0) : area2 z = 0 := by
  by_cases hb : l.b = 0
  · have ha : l.a ≠ 0 := hl.resolve_right fun h => h hb
    apply area2_zero_of_diffs fun p => (-l.c / l.a) * p.y
    intro u hu v hv
    have h1 := hz u hu
    have h2 := hz v hv
    unfold evalLine at h1 h2
    rw [hb] at h1 h2
    have hux : u.x = -l.c / l.a := by rw [eq_div_iff ha]; linarith
    have hvx : v.x = -l.c / l.a := by rw [eq_div_iff ha]; linarith
    unfold cross2
    rw [hux, hvx]
    ring
  · apply area2_zero_of_diffs fun p => (l.c / l.b) * p.x
    intro u hu v hv
    have h1 := hz u hu
    have h2 := hz v hv
    unfold evalLine at h1 h2
    have huy : u.y = (-l.c - l.a * u.x) / l.b := by rw [eq_div_iff hb]; linarith
    have hvy : v.y = (-l.c - l.a * v.x) / l.b := by rw [eq_div_iff hb]; linarith
    unfold cross2
    rw [huy, hvy]
    ring

/-- The crossing point of an edge whose endpoint values have strictly
opposite signs lies exactly on the crease. -/
theorem evalLine_edgeIntersection (l : Line) (u v : Point)
    (h : evalLine l u * evalLine l v < 0) :
    evalLine l (edgeIntersection l u v) = 0 := by
  have hne : evalLine l u - evalLine l v ≠ 0 := by
    rcases mul_neg_iff.mp h with ⟨h1, h2⟩ | ⟨h1, h2⟩ <;> intro h0 <;> linarith
  have expand : evalLine l (edgeIntersection l u v)
      = evalLine l u - (evalLine l u / (evalLine l u - evalLine l v))
        * (evalLine l u - evalLine l v) := by
    simp only [edgeIntersection, evalLine]
    ring
  rw [expand, div_mul_cancel₀ _ hne, sub_self]

/-- Inserting the crossing point of an edge splits its cross term exactly
(the inserted point is an affine combination of the endpoints). -/
theorem cross2_edgeIntersection (l : Line) (u v : Point) :
    cross2 u (edgeIntersection l u v) + cross2 (edgeIntersection l u v) v
      = cross2 u v := by
  simp only [edgeIntersection, cross2]
  ring

/-- `augWalk` on a nonempty walk starts with the walk's first vertex. -/
theorem augWalk_cons (l : Line) (u : Point) (t : List Point) (s : Point) :
    ∃ Y, augWalk l (u :: t) s = u :: Y := by
  cases t <;> exact ⟨_, rfl⟩

/-- The augmented walk, closed back to the ring's first vertex, has no
pending crossings anywhere. -/
theorem chain'_augWalk (l : Line) :
    ∀ (w : List Point) (s : Point),
      List.Chain' (pairOK l) (augWalk l w s ++ [s]) := by
  intro w
  induction w with
  | nil => intro s; simp [augWalk]
  | cons u t ih =>
    intro s
    cases t with
    | nil =>
      by_cases hc : evalLine l u * evalLine l s < 0
      · have hz := evalLine_edgeIntersection l u s hc
        simp only [augWalk, augAfter, if_pos hc, List.cons_append,
          List.singleton_append]
        exact List.Chain'.cons (by simp [pairOK, hz])
          (List.Chain'.cons (by simp [pairOK, hz]) (by simp))
      · simp only [augWalk, augAfter, if_neg hc, List.append_nil,
          List.cons_append, List.nil_append]
        exact List.Chain'.cons hc (by simp)
    | cons v t' =>
      obtain ⟨Y, hY⟩ := augWalk_cons l v t' s
      have h1 := ih s
      rw [hY, List.cons_append] at h1
      by_cases hc : evalLine l u * evalLine l v < 0
      · have hz := evalLine_edgeIntersection l u v hc
        simp only [augWalk, augAfter, if_pos hc, hY, List.cons_append,
          List.singleton_append, List.nil_append]
        exact List.Chain'.cons (by simp [pairOK, hz])
          (List.Chain'.cons (by simp [pairOK, hz]) h1)
      · simp only [augWalk, augAfter, if_neg hc, hY, List.cons_append,
          List.nil_append]
        exact List.Chain'.cons hc h1

/-- Inserting the crossing points does not change the closed path sum. -/
theorem pathSum_augWalk (l : Line) :
    ∀ (w : List Point) (s : Point), w ≠ [] →
      pathSum (augWalk l w s ++ [s]) = pathSum (w ++ [s]) := by
  intro w
  induction w with
  | nil => intro s h; exact absurd rfl h
  | cons u t ih =>
    intro s _
    cases t with
    | nil =>
      by_cases hc : evalLine l u * evalLine l s < 0
      · simp only [augWalk, augAfter, if_pos hc, List.cons_append,
          List.singleton_append, List.nil_append, pathSum]
        linear_combination cross2_edgeIntersection l u s
      · simp only [augWalk, augAfter, if_neg hc, List.append_nil]
    | cons v t' =>
      obtain ⟨Y, hY⟩ := augWalk_cons l v t' s
      have hrec := ih s (by simp)
      simp only [hY, List.cons_append, List.append_eq] at hrec
      by_cases hc : evalLine l u * evalLine l v < 0
      · simp only [augWalk, augAfter, if_pos hc, hY, List.cons_append,
          List.singleton_append, List.nil_append, pathSum, List.append_eq]
        linear_combination cross2_edgeIntersection l u v + hrec
      · simp only [augWalk, augAfter, if_neg hc, hY, List.cons_append,
          List.nil_append, pathSum, List.append_eq]
        linear_combination hrec

/-- Filtering distributes over appending. -/
theorem posOf_append (l : Line) (w1 w2 : List Point) :
    posOf l (w1 ++ w2) = posOf l w1 ++ posOf l w2 := by
  simp [posOf, List.filter_append]

/-- Filtering distributes over appending. -/
theorem negOf_append (l : Line) (w1 w2 : List Point) :
    negOf l (w1 ++ w2) = negOf l w1 ++ negOf l w2 := by
  simp [negOf, List.filter_append]

/-- An inserted crossing point lies on the crease, so the positive filter
keeps it. -/
theorem posOf_augAfter (l : Line) (u v : Point) :
    posOf l (augAfter l u v) = augAfter l u v := by
  unfold augAfter
  split_ifs with hc
  · rw [posOf_cons, if_pos (le_of_eq (evalLine_edgeIntersection l u v hc).symm)]
    rfl
  · rfl

/-- An inserted crossing point lies on the crease, so the negative filter
keeps it. -/
theorem negOf_augAfter (l : Line) (u v : Point) :
    negOf l (augAfter l u v) = augAfter l u v := by
  unfold augAfter
  split_ifs with hc
  · rw [negOf_cons, if_pos (le_of_eq (evalLine_edgeIntersection l u v hc))]
    rfl
  · rfl

/-- The clipper's one-pass walk computes exactly the two sign filters of the
augmented walk. -/
theorem clipWalk_eq_filters (l : Line) :
    ∀ (w : List Point) (s : Point),
      clipWalk l w s = (posOf l (augWalk l w s), negOf l (augWalk l w s)) := by
  intro w
  induction w with
  | nil => intro s; rfl
  | cons u t ih =>
    intro s
    cases t with
    | nil =>
      show ((if 0 ≤ evalLine l u then [u] else []) ++ augAfter l u s,
          (if evalLine l u ≤ 0 then [u] else []) ++ augAfter l u s)
        = (posOf l (u :: augAfter l u s), negOf l (u :: augAfter l u s))
      rw [posOf_cons, negOf_cons, posOf_augAfter, negOf_augAfter]
      split_ifs <;> rfl
    | cons v t' =>
      show ((if 0 ≤ evalLine l u then [u] else []) ++ augAfter l u v
            ++ (clipWalk l (v :: t') s).1,
          (if evalLine l u ≤ 0 then [u] else []) ++ augAfter l u v
            ++ (clipWalk l (v :: t') s).2)
        = (posOf l (u :: (augAfter l u v ++ augWalk l (v :: t') s)),
          negOf l (u :: (augAfter l u v ++ augWalk l (v :: t') s)))
      rw [ih s, posOf_cons, negOf_cons, posOf_append, negOf_append,
        posOf_augAfter, negOf_augAfter]
      split_ifs <;> simp

/-- The general clipping theorem: for any polygon ring and any genuine line,
the clipper's two outputs carry the polygon's full signed area between them,
and each output stays on its closed side of the crease. -/
theorem clip_area_split (l : Line) (w : List Point)
    (hl : l.a ≠ 0 ∨ l.b ≠ 0) :
    area2 (clip l w).1 + area2 (clip l w).2 = area2 w
    ∧ (∀ p ∈ (clip l w).1, 0 ≤ evalLine l p)
    ∧ (∀ p ∈ (clip l w).2, evalLine l p ≤ 0) := by
  cases w with
  | nil => exact ⟨by simp [clip, area2], by simp [clip], by simp [clip]⟩
  | cons x t =>
    have hclip : clip l (x :: t)
        = (posOf l (augWalk l (x :: t) x), negOf l (augWalk l (x :: t) x)) :=
      clipWalk_eq_filters l (x :: t) x
    have hch2 := chain'_augWalk l (x :: t) x
    rcases List.chain'_append.mp hch2 with ⟨hchA, -, hseam⟩
    obtain ⟨Y, hY⟩ := augWalk_cons l x t x
    have hcyc : ∀ u, (augWalk l (x :: t) x).getLast? = some u →
        ∀ v, (augWalk l (x :: t) x).head? = some v → pairOK l u v := by
      intro u hu v hv
      rw [hY] at hv
      injection hv with hv
      subst hv
      exact hseam u hu x rfl
    have hmain := area2_filter_split l (augWalk l (x :: t) x) hchA hcyc
    have hzer : area2 (zerOf l (augWalk l (x :: t) x)) = 0 := by
      apply area2_zero_of_on_line l hl
      intro p hp
      have := List.mem_filter.mp hp
      simpa using this.2
    have haug : area2 (augWalk l (x :: t) x) = area2 (x :: t) := by
      rw [hY]
      show pathSum ((x :: Y) ++ [x]) = area2 (x :: t)
      rw [← hY, pathSum_augWalk l (x :: t) x (by simp)]
      rfl
    refine ⟨?_, ?_, ?_⟩
    · rw [hclip]
      simp only
      rw [hmain, hzer, add_zero, haug]
    · intro p hp
      rw [hclip] at hp
      simp only at hp
      have := List.mem_filter.mp hp
      simpa using this.2
    · intro p hp
      rw [hclip] at hp
      simp only at hp
      have := List.mem_filter.mp hp
      simpa using this.2

/-- C6: the polygon clipper partitions the sheet exactly — the signed areas
of the positive and negative outputs add up to the sheet's signed area
(exactly, over exact arithmetic), and the two outputs lie in the two closed
half-planes of the crease, so their overlap is confined to the crease line
itself and has zero area. -/
theorem clip_partitions_sheet (sheet : Paper) (crease : Line)
    (hl : crease.a ≠ 0 ∨ crease.b ≠ 0) :
    area2 (clip crease sheet.corners).1 + area2 (clip crease sheet.corners).2
      = area2 sheet.corners
    ∧ (∀ p ∈ (clip crease sheet.corners).1, 0 ≤ evalLine crease p)
    ∧ (∀ p ∈ (clip crease sheet.corners).2, evalLine crease p ≤ 0) :=
  clip_area_split crease sheet.corners hl

/-- Witness for C6: the crease `x = 250` against the site's actual paper
(corners `(62.5, 62.5) … (62.5, 437.5)`). -/
theorem clip_partitions_sheet_witness :
    area2 (clip ⟨1, 0, -250⟩
        (Paper.corners ⟨⟨125/2, 125/2⟩, ⟨875/2, 125/2⟩, ⟨875/2, 875/2⟩, ⟨125/2, 875/2⟩⟩)).1
      + area2 (clip ⟨1, 0, -250⟩
        (Paper.corners ⟨⟨125/2, 125/2⟩, ⟨875/2, 125/2⟩, ⟨875/2, 875/2⟩, ⟨125/2, 875/2⟩⟩)).2
      = area2 (Paper.corners ⟨⟨125/2, 125/2⟩, ⟨875/2, 125/2⟩, ⟨875/2, 875/2⟩, ⟨125/2, 875/2⟩⟩)
    ∧ (∀ p ∈ (clip ⟨1, 0, -250⟩
        (Paper.corners ⟨⟨125/2, 125/2⟩, ⟨875/2, 125/2⟩, ⟨875/2, 875/2⟩, ⟨125/2, 875/2⟩⟩)).1,
        0 ≤ evalLine ⟨1, 0, -250⟩ p)
    ∧ (∀ p ∈ (clip ⟨1, 0, -250⟩
        (Paper.corners ⟨⟨125/2, 125/2⟩, ⟨875/2, 125/2⟩, ⟨875/2, 875/2⟩, ⟨125/2, 875/2⟩⟩)).2,
        evalLine ⟨1, 0, -250⟩ p ≤ 0) :=
  clip_partitions_sheet ⟨⟨125/2, 125/2⟩, ⟨875/2, 125/2⟩, ⟨875/2, 875/2⟩, ⟨125/2, 875/2⟩⟩
    ⟨1, 0, -250⟩ (by norm_num)

/-! ## Sanity checks of the modelled core against the README's stated rules -/

/-- The geometric-product table realizes the README's blade rules: `e0` is
degenerate, `e1`, `e2` square to 1, basis vectors anticommute into the
bivectors, `e01·e12 = -e20`, and `e12` squares to `-1`. -/
theorem geometricProduct_basis_rules :
    geometricProduct e0MV e0MV = zeroMV
    ∧ geometricProduct e1MV e1MV = oneMV
    ∧ geometricProduct e2MV e2MV = oneMV
    ∧ geometricProduct e0MV e1MV = e01MV
    ∧ geometricProduct e1MV e0MV = smul (-1) e01MV
    ∧ geometricProduct e2MV e0MV = e20MV
    ∧ geometricProduct e1MV e2MV = e12MV
    ∧ geometricProduct e2MV e1MV = smul (-1) e12MV
    ∧ geometricProduct e01MV e12MV = smul (-1) e20MV
    ∧ geometricProduct e12MV e12MV = smul (-1) oneMV := by
  refine ⟨?_, ?_, ?_, ?_, ?_, ?_, ?_, ?_, ?_, ?_⟩ <;>
    (ext <;>
      norm_num [geometricProduct, smul, zeroMV, oneMV, e0MV, e1MV, e2MV,
        e01MV, e20MV, e12MV, e012MV])

/-- The README's defining property of the dual: each basis blade times its
dual is the unit pseudoscalar `e012`, with no sign corrections. -/
theorem blade_mul_dual_eq_pseudoscalar :
    geometricProduct oneMV (dual oneMV) = e012MV
    ∧ geometricProduct e0MV (dual e0MV) = e012MV
    ∧ geometricProduct e1MV (dual e1MV) = e012MV
    ∧ geometricProduct e2MV (dual e2MV) = e012MV
    ∧ geometricProduct e01MV (dual e01MV) = e012MV
    ∧ geometricProduct e20MV (dual e20MV) = e012MV
    ∧ geometricProduct e12MV (dual e12MV) = e012MV
    ∧ geometricProduct e012MV (dual e012MV) = e012MV := by
  refine ⟨?_, ?_, ?_, ?_, ?_, ?_, ?_, ?_⟩ <;>
    (ext <;>
      norm_num [geometricProduct, dual, oneMV, e0MV, e1MV, e2MV,
        e01MV, e20MV, e12MV, e012MV])

/-- Incidence sanity for the join-based line constructor (spec §8, "Axiom 1
incidence"): whenever `lineThrough` succeeds, the crease's line equation
vanishes at both defining points. -/
theorem lineThrough_incidence (p0 p1 : Point) (l : Line)
    (h : lineThrough p0 p1 = some l) :
    evalLine l p0 = 0 ∧ evalLine l p1 = 0 := by
  simp only [lineThrough] at h
  split_ifs at h
  injection h with h
  subst h
  constructor <;>
    · simp only [evalLine, join, pointMV]
      ring

/-- Concrete clipper sanity on the site's actual paper (a 375×375 square)
cut by the vertical crease `x = 250`: the two halves carry twice-areas
`140625 + 140625 = 281250`, the square's full shoelace sum. -/
theorem clip_site_paper_concrete :
    area2 [(⟨125/2, 125/2⟩ : Point), ⟨875/2, 125/2⟩, ⟨875/2, 875/2⟩, ⟨125/2, 875/2⟩]
        = 281250
    ∧ area2 (clip ⟨1, 0, -250⟩
        [⟨125/2, 125/2⟩, ⟨875/2, 125/2⟩, ⟨875/2, 875/2⟩, ⟨125/2, 875/2⟩]).1 = 140625
    ∧ area2 (clip ⟨1, 0, -250⟩
        [⟨125/2, 125/2⟩, ⟨875/2, 125/2⟩, ⟨875/2, 875/2⟩, ⟨125/2, 875/2⟩]).2 = 140625 := by
  refine ⟨?_, ?_, ?_⟩ <;>
    norm_num [clip, clipWalk, augAfter, edgeIntersection, evalLine, area2,
      pathSum, cross2]

/-- Concrete solver sanity (spec §8, scenario 1): `axiom_1` on the points
`(250, 125)` and `(250, 375)` produces the vertical crease `x = 250`
(here unnormalized: `250·x - 62500 = 0`). -/
theorem axiom_1_concrete_vertical :
    (axiom_1 ⟨⟨125/2, 125/2⟩, ⟨875/2, 125/2⟩, ⟨875/2, 875/2⟩, ⟨125/2, 875/2⟩⟩
        ⟨250, 125⟩ ⟨250, 375⟩).map AxiomResult.line = some ⟨250, 0, -62500⟩ := by
  norm_num [axiom_1, lineThrough, join, pointMV, epsilon]
